import Mathlib

/-!
Verification of `codecs2.py`: a minimal framework for incremental,
chunk-at-a-time data transforms.  Buffers are embedded as `List Nat`
(byte values), decoded text as `List Nat` (code points).  The driver
loop is embedded with explicit fuel `data.length + 1`; for any step
that never claims more bytes than remain this fuel is never exhausted
(proved below), so `fuelOut` marks only hypothetical non-termination.
-/

set_option maxHeartbeats 1000000

deriving instance DecidableEq for Except

namespace Codecs2

/-- Error-handling policy of the text decoder: Python's `errors='strict'`
(the default) or the lenient substitution mode (`errors='replace'`). -/
inductive Policy where
  | strict
  | replace
  deriving DecidableEq

/-- Python exceptions that can escape a transform step: a failing `assert`
(line 43/44 of the source) or an uncaught `UnicodeDecodeError` carrying
`(encoding, object, start, end)`. -/
inductive PyExn where
  | assertionError
  | unicodeDecodeError (encoding : String) (object : List Nat) (start stop : Nat)
  deriving DecidableEq

/-- Modelled from the spec: byte ranges of the external shift-JIS decoder
bound by `codecs.lookup('sjis').decode`, which is Python standard-library
code, not part of this repository.  A byte in these ranges is the first
(lead) byte of a two-byte sequence; they are exactly the complement of the
single-byte/trail-only test on line 52 of the source. -/
def isLead (b : Nat) : Bool :=
  (0x81 ≤ b && b ≤ 0x9F) || (0xE0 ≤ b && b ≤ 0xFC)

/-- Modelled from the spec: valid second (trail) bytes of a two-byte
shift-JIS sequence. -/
def isTrail (b : Nat) : Bool :=
  (0x40 ≤ b && b ≤ 0x7E) || (0x80 ≤ b && b ≤ 0xFC)

/-- Modelled from the spec: the code point a decoded two-byte sequence maps
to.  An injective stand-in for the JIS mapping table, chosen disjoint from
ASCII (`≤ 0x7F`), halfwidth katakana (`0xFF61-0xFF9F`) and the substitution
character `0xFFFD`. -/
def pairChar (lead trail : Nat) : Nat := 0x10000 + lead * 0x100 + trail

/-- Prepend a decoded code point to a decode result, shifting an error
position by the number of bytes already consumed. -/
def consDec (c : Nat) (k : Nat) : Except Nat (List Nat) → Except Nat (List Nat)
  | .ok t => .ok (c :: t)
  | .error i => .error (i + k)

/-- Modelled from the spec: the external shift-JIS decoder.  ASCII bytes and
halfwidth katakana (`0xA1-0xDF`) are single-byte characters; a lead byte
followed by a trail byte decodes to `pairChar`; anything else is an error.
Under `strict` the error reports the start position of the erroneous byte;
under `replace` each erroneous byte becomes `0xFFFD` (in particular a
truncated lead byte at the end of the input is silently substituted). -/
def sjisCore (pol : Policy) : List Nat → Except Nat (List Nat)
  | [] => .ok []
  | b :: rest =>
    if b ≤ 0x7F then consDec b 1 (sjisCore pol rest)
    else if 0xA1 ≤ b ∧ b ≤ 0xDF then consDec (0xFF61 + (b - 0xA1)) 1 (sjisCore pol rest)
    else if isLead b then
      match rest with
      | [] =>
        match pol with
        | .strict => .error 0
        | .replace => .ok [0xFFFD]
      | t :: rest2 =>
        if isTrail t then consDec (pairChar b t) 2 (sjisCore pol rest2)
        else
          match pol with
          | .strict => .error 0
          | .replace => consDec 0xFFFD 1 (sjisCore pol (t :: rest2))
    else
      match pol with
      | .strict => .error 0
      | .replace => consDec 0xFFFD 1 (sjisCore pol rest)

/-- Modelled from the spec: the decode entry point `_impl` bound on line 34.
On success it returns `(text, bytes consumed)` with the whole input
consumed; on failure it raises a `UnicodeDecodeError` whose `args` carry
`(encoding, object, start, end)` where `object` is the bytes object that
was being decoded and `start`/`end` delimit the erroneous byte. -/
def sjisDecode (pol : Policy) (s : List Nat) :
    Except (String × List Nat × Nat × Nat) (List Nat × Nat) :=
  match sjisCore pol s with
  | .ok t => .ok (t, s.length)
  | .error i => .error ("shift_jis", s, i, i + 1)

/-- Lines 35-57: the inner `_transform` of the `sjis` provider.  The
`except UnicodeDecodeError` branch is the `.error` case of the outer
`sjisDecode`; the two `assert` statements become `assertionError` when
false; a decode error raised by one of the re-decode calls (never caught
in the source) propagates as `unicodeDecodeError`. -/
def sjisStep (pol : Policy) (data : List Nat) (offset : Nat) :
    Except PyExn (List Nat × Nat) :=
  if data = [] then .ok ([], 0)
  else
    match sjisDecode pol (data.drop offset) with
    | .error (enc, d, start, _stop) =>
      if enc = "shift_jis" then
        if d = data then
          match sjisDecode pol ((data.drop offset).take start) with
          | .ok rs => .ok rs
          | .error (e1, e2, e3, e4) => .error (.unicodeDecodeError e1 e2 e3 e4)
        else .error .assertionError
      else .error .assertionError
    | .ok (result, size) =>
      if pol = .strict then .ok (result, size)
      else
        if (data.getLast?).getD 0 < 0x81 ∨
            (0xA0 ≤ (data.getLast?).getD 0 ∧ (data.getLast?).getD 0 ≤ 0xDF) ∨
            0xFD ≤ (data.getLast?).getD 0 then
          .ok (result, size)
        else
          match sjisDecode pol ((data.drop offset).dropLast) with
          | .ok (without_last, count) =>
            if without_last.isPrefixOf result then .ok (without_last, count)
            else .ok (result, size)
          | .error (e1, e2, e3, e4) => .error (.unicodeDecodeError e1 e2 e3 e4)

/-- Line 24: one block of the xor transform,
`bytes(pattern[i] ^ data[i+offset] for i in range(count))`. -/
def xorSlice (pattern data : List Nat) (offset : Nat) : List Nat :=
  (List.range pattern.length).map fun i => pattern.getD i 0 ^^^ data.getD (i + offset) 0

/-- Lines 16-24: the inner `_transform` of the `xor` provider
(`count = len(pattern)` is inlined).  The length comparison is over `Int`
because Python's `len(data) - offset` may be negative. -/
def xorStep (pattern data : List Nat) (offset : Nat) : Except PyExn (List Nat × Nat) :=
  if (data.length : Int) - (offset : Int) < (pattern.length : Int) then .ok ([], 0)
  else .ok (xorSlice pattern data offset, pattern.length)

/-- Lines 9-25: the `xor` provider, returning `(_transform, b'')`. -/
def xor (pattern : List Nat) :
    (List Nat → Nat → Except PyExn (List Nat × Nat)) × List Nat :=
  (xorStep pattern, [])

/-- Lines 33-58: the `sjis` provider, returning `(_transform, '')`. -/
def sjis (pol : Policy) :
    (List Nat → Nat → Except PyExn (List Nat × Nat)) × List Nat :=
  (sjisStep pol, [])

/-- Outcome of the driving loop (lines 68-76): normal exit, an exception
escaping the step, or fuel exhaustion of the embedding. -/
inductive LoopOut (α : Type) where
  | done (chunks : List (List α)) (finalOffset : Nat)
  | exn (e : PyExn)
  | fuelOut
  deriving DecidableEq

/-- Lines 68-76: the driving loop.  Each iteration calls the step, appends
the returned chunk before checking the stop condition, advances the offset
by the consumed count, and stops the moment the step consumes nothing. -/
def driveLoop {α : Type} (step : Nat → Except PyExn (List α × Nat)) :
    Nat → Nat → LoopOut α
  | _offset, 0 => .fuelOut
  | offset, fuel + 1 =>
    match step offset with
    | .error e => .exn e
    | .ok (chunk, consumed) =>
      if consumed = 0 then .done [chunk] offset
      else
        match driveLoop step (offset + consumed) fuel with
        | .done chunks fin => .done (chunk :: chunks) fin
        | r => r

/-- Python's `joiner.join(chunks)`: the chunks interspersed with the joiner
and concatenated.  Both providers supply an empty joiner. -/
def pyJoin {α : Type} (joiner : List α) (chunks : List (List α)) : List α :=
  (chunks.intersperse joiner).flatten

/-- Result of one driver invocation: a successful value, the
`ValueError(result, len(data) - offset)` of line 79 (trailing count over
`Int`, as in Python), an exception escaping the step, or fuel exhaustion
of the embedding. -/
inductive DriveResult (α : Type) where
  | ok (result : List α)
  | incomplete (partialOut : List α) (trailing : Int)
  | exn (e : PyExn)
  | fuelOut
  deriving DecidableEq

/-- Lines 61-80: the driver `transform(data, provider, full)`.  The
provider is the `(transformer, joiner)` pair a factory returns.  The loop
runs with fuel `data.length + 1`, which is never exhausted for a step that
consumes no more than the bytes remaining (proved below). -/
def transform {α : Type} (data : List Nat)
    (provider : (List Nat → Nat → Except PyExn (List α × Nat)) × List α)
    (full : Bool) : DriveResult α :=
  match driveLoop (provider.1 data) 0 (data.length + 1) with
  | .done chunks offset =>
    if full && (offset != data.length) then
      .incomplete (pyJoin provider.2 chunks) ((data.length : Int) - (offset : Int))
    else .ok (pyJoin provider.2 chunks)
  | .exn e => .exn e
  | .fuelOut => .fuelOut

/-- Observation of the loop of lines 68-76: the chunk returned by each step
call, in call order, including the chunk of the final zero-consumption
call.  Calls after an escaping exception do not happen. -/
def chunkTrace {α : Type} (step : Nat → Except PyExn (List α × Nat)) :
    Nat → Nat → List (List α)
  | _offset, 0 => []
  | offset, fuel + 1 =>
    match step offset with
    | .error _ => []
    | .ok (chunk, consumed) =>
      if consumed = 0 then [chunk]
      else chunk :: chunkTrace step (offset + consumed) fuel

/-- Observation of the loop of lines 68-76: the value of `offset` at each
step call, in call order, followed by the final value of `offset` when the
loop exits normally. -/
def offsetTrace {α : Type} (step : Nat → Except PyExn (List α × Nat)) :
    Nat → Nat → List Nat
  | offset, 0 => [offset]
  | offset, fuel + 1 =>
    match step offset with
    | .error _ => [offset]
    | .ok (_, consumed) =>
      if consumed = 0 then [offset, offset]
      else offset :: offsetTrace step (offset + consumed) fuel

/-- The output the caller can see: the successful result, or the partial
result attached to the incompleteness error. -/
def outputOf {α : Type} : DriveResult α → Option (List α)
  | .ok r => some r
  | .incomplete q _ => some q
  | .exn _ => none
  | .fuelOut => none

/-- The list of chunks a full xor pass produces: `k` consecutive blocks of
`pattern.length` bytes starting at `offset`. -/
def xorChunks (pattern data : List Nat) : Nat → Nat → List (List Nat)
  | 0, _offset => []
  | k + 1, offset => xorSlice pattern data offset :: xorChunks pattern data k (offset + pattern.length)

/-- The offset invariant of the spec's data model: the trace starts at 0,
every offset is at most `len`, offsets never decrease, and they strictly
increase at every iteration except possibly the last. -/
def offsetInv (step : Nat → Except PyExn (List Nat × Nat)) (len : Nat) : Prop :=
  (offsetTrace step 0 (len + 1)).head? = some 0 ∧
  List.Chain' (· ≤ ·) (offsetTrace step 0 (len + 1)) ∧
  List.Chain' (· < ·) (offsetTrace step 0 (len + 1)).dropLast ∧
  ∀ o ∈ offsetTrace step 0 (len + 1), o ≤ len

/-- Joining with the empty joiner is plain concatenation. -/
theorem pyJoin_nil {α : Type} (chunks : List (List α)) :
    pyJoin [] chunks = chunks.flatten := by
  induction chunks with
  | nil => rfl
  | cons a t ih =>
    cases t with
    | nil => simp [pyJoin, List.intersperse]
    | cons b t2 =>
      simp only [pyJoin, List.intersperse, List.flatten_cons] at ih ⊢
      simp [ih]

/-- If the loop exits normally, the chunks it collected are exactly the
chunks returned across its step calls, in call order. -/
theorem chunkTrace_eq_of_done {α : Type} (step : Nat → Except PyExn (List α × Nat)) :
    ∀ fuel offset chunks fin, driveLoop step offset fuel = .done chunks fin →
      chunkTrace step offset fuel = chunks := by
  intro fuel
  induction fuel with
  | zero => intro o c f h; simp [driveLoop] at h
  | succ n ih =>
    intro o c f h
    simp only [driveLoop] at h
    simp only [chunkTrace]
    split at h
    · exact absurd h (by simp)
    · next chunk consumed heq =>
      split at h
      · next hc =>
        rw [if_pos hc]
        simp only [LoopOut.done.injEq] at h
        exact h.1
      · next hc =>
        rw [if_neg hc]
        split at h
        · next c2 f2 heq2 =>
          simp only [LoopOut.done.injEq] at h
          rw [ih (o + consumed) c2 f2 heq2, h.1]
        · next r heq2 hne =>
          exact absurd h (hne c f)

/-- For a step that never claims more bytes than remain, the loop never
exhausts fuel exceeding the remaining byte count. -/
theorem driveLoop_no_fuelOut {α : Type} (step : Nat → Except PyExn (List α × Nat)) (len : Nat)
    (hstep : ∀ o ch c, o ≤ len → step o = .ok (ch, c) → c ≤ len - o) :
    ∀ fuel offset, offset ≤ len → len - offset < fuel →
      driveLoop step offset fuel ≠ .fuelOut := by
  intro fuel
  induction fuel with
  | zero => intro o _ h; omega
  | succ n ih =>
    intro o ho hf
    simp only [driveLoop]
    intro hcontra
    split at hcontra
    · exact absurd hcontra (by simp)
    · next ch c heq =>
      split at hcontra
      · exact absurd hcontra (by simp)
      · next hc =>
        have hcle := hstep o ch c ho heq
        split at hcontra
        · exact absurd hcontra (by simp)
        · exact absurd (by assumption : driveLoop step (o + c) n = LoopOut.fuelOut)
            (ih (o + c) (by omega) (by omega))

/-- The xor step never claims more bytes than remain from the offset. -/
theorem xorStep_progress (p data : List Nat) :
    ∀ o ch c, o ≤ data.length → xorStep p data o = .ok (ch, c) → c ≤ data.length - o := by
  intro o ch c _ho h
  unfold xorStep at h
  split at h
  · simp only [Except.ok.injEq, Prod.mk.injEq] at h
    omega
  · next hcond =>
    simp only [Except.ok.injEq, Prod.mk.injEq] at h
    obtain ⟨h1, h2⟩ := h
    omega

/-- The modelled decoder consumes its whole input on success. -/
theorem sjisDecode_ok_len (pol : Policy) (s t : List Nat) (c : Nat)
    (h : sjisDecode pol s = .ok (t, c)) : c = s.length := by
  unfold sjisDecode at h
  cases hc : sjisCore pol s with
  | ok u => rw [hc] at h; simp only [Except.ok.injEq, Prod.mk.injEq] at h; exact h.2.symm
  | error i => rw [hc] at h; simp at h

/-- The sjis step never claims more bytes than remain from the offset. -/
theorem sjisStep_progress (pol : Policy) (data : List Nat) :
    ∀ o ch c, o ≤ data.length → sjisStep pol data o = .ok (ch, c) → c ≤ data.length - o := by
  intro o ch c _ho h
  unfold sjisStep at h
  split at h
  · simp only [Except.ok.injEq, Prod.mk.injEq] at h
    omega
  · split at h
    · next enc d start stop heq =>
      split at h
      · split at h
        · split at h
          · next rs heq2 =>
            simp only [Except.ok.injEq] at h
            subst h
            have := sjisDecode_ok_len pol _ _ _ heq2
            simp only [List.length_take, List.length_drop] at this
            omega
          · exact absurd h (by simp)
        · exact absurd h (by simp)
      · exact absurd h (by simp)
    · next result size heq =>
      have hsz := sjisDecode_ok_len pol _ _ _ heq
      rw [List.length_drop] at hsz
      split at h
      · simp only [Except.ok.injEq, Prod.mk.injEq] at h
        omega
      · split at h
        · simp only [Except.ok.injEq, Prod.mk.injEq] at h
          omega
        · split at h
          · next wl count heq2 =>
            have hc2 := sjisDecode_ok_len pol _ _ _ heq2
            rw [List.length_dropLast, List.length_drop] at hc2
            split at h
            · simp only [Except.ok.injEq, Prod.mk.injEq] at h
              omega
            · simp only [Except.ok.injEq, Prod.mk.injEq] at h
              omega
          · exact absurd h (by simp)

/-- When no data remains from the offset, the sjis step returns the empty
chunk and consumes nothing, under both policies. -/
theorem sjisStep_end (pol : Policy) (data : List Nat) (offset : Nat)
    (h : data.length ≤ offset) : sjisStep pol data offset = .ok ([], 0) := by
  unfold sjisStep
  by_cases hd : data = []
  · simp [hd]
  · rw [if_neg hd]
    have hdrop : data.drop offset = [] := List.drop_eq_nil_of_le h
    rw [hdrop]
    split
    · next enc d start stop heq => exact absurd heq (by simp [sjisDecode, sjisCore])
    · next result size heq =>
      have heq' : result = [] ∧ size = 0 := by
        have : sjisDecode pol [] = .ok ([], 0) := rfl
        rw [this] at heq
        simp only [Except.ok.injEq, Prod.mk.injEq] at heq
        exact ⟨heq.1.symm, heq.2.symm⟩
      obtain ⟨rfl, rfl⟩ := heq'
      split
      · rfl
      · split
        · rfl
        · split
          · next wl count heq2 =>
            have heq2' : wl = [] ∧ count = 0 := by
              have : sjisDecode pol (([] : List Nat).dropLast) = .ok ([], 0) := rfl
              rw [this] at heq2
              simp only [Except.ok.injEq, Prod.mk.injEq] at heq2
              exact ⟨heq2.1.symm, heq2.2.symm⟩
            obtain ⟨rfl, rfl⟩ := heq2'
            split
            · rfl
            · rfl
          · next e1 e2 e3 e4 heq2 => exact absurd heq2 (by simp [sjisDecode, sjisCore])

/-- The offset trace is never empty. -/
theorem offsetTrace_ne_nil {α : Type} (step : Nat → Except PyExn (List α × Nat)) :
    ∀ fuel offset, offsetTrace step offset fuel ≠ [] := by
  intro fuel offset
  cases fuel with
  | zero => simp [offsetTrace]
  | succ n =>
    simp only [offsetTrace]
    split
    · simp
    · split <;> simp

/-- The offset trace starts with the starting offset. -/
theorem offsetTrace_head {α : Type} (step : Nat → Except PyExn (List α × Nat)) :
    ∀ fuel offset, (offsetTrace step offset fuel).head? = some offset := by
  intro fuel offset
  cases fuel with
  | zero => simp [offsetTrace]
  | succ n =>
    simp only [offsetTrace]
    split
    · simp
    · split <;> simp

/-- For a step that never claims more bytes than remain: every offset in
the trace is bounded by `len`, the trace never decreases, and it strictly
increases everywhere except possibly at its final entry. -/
theorem offsetTrace_inv {α : Type} (step : Nat → Except PyExn (List α × Nat)) (len : Nat)
    (hstep : ∀ o ch c, o ≤ len → step o = .ok (ch, c) → c ≤ len - o) :
    ∀ fuel offset, offset ≤ len →
      List.Chain' (· ≤ ·) (offsetTrace step offset fuel) ∧
      List.Chain' (· < ·) (offsetTrace step offset fuel).dropLast ∧
      ∀ o ∈ offsetTrace step offset fuel, o ≤ len := by
  intro fuel
  induction fuel with
  | zero =>
    intro offset ho
    simp only [offsetTrace]
    refine ⟨List.chain'_singleton offset, by simp [List.dropLast], ?_⟩
    intro o hmem
    simp only [List.mem_singleton] at hmem
    omega
  | succ n ih =>
    intro offset ho
    simp only [offsetTrace]
    split
    · refine ⟨List.chain'_singleton offset, by simp [List.dropLast], ?_⟩
      intro o hmem
      simp only [List.mem_singleton] at hmem
      omega
    · next ch c hs =>
      by_cases hc : c = 0
      · rw [if_pos hc]
        refine ⟨List.chain'_pair.mpr le_rfl, List.chain'_singleton offset, ?_⟩
        intro o hmem
        simp only [List.mem_cons, List.mem_singleton] at hmem
        rcases hmem with rfl | rfl | hmem
        · exact ho
        · exact ho
        · simp at hmem
      · rw [if_neg hc]
        have hcle := hstep offset ch c ho hs
        have hnext : offset + c ≤ len := by omega
        obtain ⟨ih1, ih2, ih3⟩ := ih (offset + c) hnext
        have hhd := offsetTrace_head step n (offset + c)
        refine ⟨?_, ?_, ?_⟩
        · rw [List.chain'_cons']
          refine ⟨?_, ih1⟩
          intro b hb
          rw [hhd] at hb
          simp only [Option.mem_def, Option.some.injEq] at hb
          omega
        · cases htr : offsetTrace step (offset + c) n with
          | nil => exact absurd htr (offsetTrace_ne_nil step n (offset + c))
          | cons b t2 =>
            have hbd : (offset :: b :: t2).dropLast = offset :: (b :: t2).dropLast := rfl
            rw [hbd]
            rw [List.chain'_cons']
            constructor
            · intro b2 hb2
              cases t2 with
              | nil => simp [List.dropLast] at hb2
              | cons b3 t3 =>
                have : ((b :: b3 :: t3).dropLast).head? = some b := rfl
                rw [this] at hb2
                simp only [Option.mem_def, Option.some.injEq] at hb2
                rw [htr] at hhd
                simp only [List.head?_cons, Option.some.injEq] at hhd
                omega
            · rw [← htr]
              exact ih2
        · intro o hmem
          simp only [List.mem_cons] at hmem
          rcases hmem with rfl | hmem
          · exact ho
          · exact ih3 o hmem
/-- Unfolding of the modelled decoder: ASCII byte. -/
theorem sjisCore_ascii (pol : Policy) (b : Nat) (rest : List Nat) (h1 : b ≤ 0x7F) :
    sjisCore pol (b :: rest) = consDec b 1 (sjisCore pol rest) := by
  conv_lhs => rw [sjisCore.eq_def]
  simp only [if_pos h1]

/-- Unfolding of the modelled decoder: halfwidth katakana byte. -/
theorem sjisCore_kana (pol : Policy) (b : Nat) (rest : List Nat)
    (h1 : ¬ b ≤ 0x7F) (h2 : 0xA1 ≤ b ∧ b ≤ 0xDF) :
    sjisCore pol (b :: rest) = consDec (0xFF61 + (b - 0xA1)) 1 (sjisCore pol rest) := by
  conv_lhs => rw [sjisCore.eq_def]
  simp only [if_neg h1, if_pos h2]

/-- Unfolding of the modelled decoder: lead byte followed by a trail byte. -/
theorem sjisCore_pair (pol : Policy) (b t : Nat) (rest2 : List Nat)
    (h1 : ¬ b ≤ 0x7F) (h2 : ¬ (0xA1 ≤ b ∧ b ≤ 0xDF)) (h3 : isLead b) (h4 : isTrail t) :
    sjisCore pol (b :: t :: rest2) = consDec (pairChar b t) 2 (sjisCore pol rest2) := by
  conv_lhs => rw [sjisCore.eq_def]
  simp only [if_neg h1, if_neg h2, if_pos h3, if_pos h4]

/-- Unfolding of the modelled decoder: truncated lead byte, strict policy. -/
theorem sjisCore_lead_nil_strict (b : Nat)
    (h1 : ¬ b ≤ 0x7F) (h2 : ¬ (0xA1 ≤ b ∧ b ≤ 0xDF)) (h3 : isLead b) :
    sjisCore .strict [b] = .error 0 := by
  conv_lhs => rw [sjisCore.eq_def]
  simp only [if_neg h1, if_neg h2, if_pos h3]

/-- Unfolding of the modelled decoder: lead byte with an invalid trail,
strict policy. -/
theorem sjisCore_badtrail_strict (b t : Nat) (rest2 : List Nat)
    (h1 : ¬ b ≤ 0x7F) (h2 : ¬ (0xA1 ≤ b ∧ b ≤ 0xDF)) (h3 : isLead b) (h4 : ¬ isTrail t) :
    sjisCore .strict (b :: t :: rest2) = .error 0 := by
  conv_lhs => rw [sjisCore.eq_def]
  simp only [if_neg h1, if_neg h2, if_pos h3, if_neg h4]

/-- Unfolding of the modelled decoder: invalid byte, strict policy. -/
theorem sjisCore_invalid_strict (b : Nat) (rest : List Nat)
    (h1 : ¬ b ≤ 0x7F) (h2 : ¬ (0xA1 ≤ b ∧ b ≤ 0xDF)) (h3 : ¬ isLead b) :
    sjisCore .strict (b :: rest) = .error 0 := by
  conv_lhs => rw [sjisCore.eq_def]
  simp only [if_neg h1, if_neg h2, if_neg h3]

/-- Auxiliary induction (on a length bound): a buffer that decodes cleanly
under the strict policy is a self-contained sequence of complete units, so
under the replace policy it decodes to the same text in front of whatever
follows it. -/
theorem sjisCore_strict_append_aux :
    ∀ n B txt s r, B.length ≤ n →
      sjisCore .strict B = .ok txt → sjisCore .replace s = .ok r →
      sjisCore .replace (B ++ s) = .ok (txt ++ r) := by
  intro n
  induction n with
  | zero =>
    intro B txt s r hlen hB hs
    have hBnil : B = [] := List.length_eq_zero.mp (Nat.le_zero.mp hlen)
    subst hBnil
    simp only [sjisCore, Except.ok.injEq] at hB
    subst hB
    simpa using hs
  | succ n ih =>
    intro B txt s r hlen hB hs
    cases B with
    | nil =>
      simp only [sjisCore, Except.ok.injEq] at hB
      subst hB
      simpa using hs
    | cons b rest =>
      have hlen2 : rest.length ≤ n := by
        simp only [List.length_cons] at hlen
        omega
      by_cases h1 : b ≤ 0x7F
      · rw [sjisCore_ascii .strict b rest h1] at hB
        cases hrest : sjisCore .strict rest with
        | error i => rw [hrest] at hB; simp [consDec] at hB
        | ok t2 =>
          rw [hrest] at hB
          simp only [consDec, Except.ok.injEq] at hB
          rw [List.cons_append, sjisCore_ascii .replace b (rest ++ s) h1,
            ih rest t2 s r hlen2 hrest hs]
          simp only [consDec, Except.ok.injEq]
          rw [← hB]
          simp
      · by_cases h2 : 0xA1 ≤ b ∧ b ≤ 0xDF
        · rw [sjisCore_kana .strict b rest h1 h2] at hB
          cases hrest : sjisCore .strict rest with
          | error i => rw [hrest] at hB; simp [consDec] at hB
          | ok t2 =>
            rw [hrest] at hB
            simp only [consDec, Except.ok.injEq] at hB
            rw [List.cons_append, sjisCore_kana .replace b (rest ++ s) h1 h2,
              ih rest t2 s r hlen2 hrest hs]
            simp only [consDec, Except.ok.injEq]
            rw [← hB]
            simp
        · by_cases h3 : isLead b
          · cases rest with
            | nil =>
              rw [sjisCore_lead_nil_strict b h1 h2 h3] at hB
              simp at hB
            | cons t rest2 =>
              have hlen3 : rest2.length ≤ n := by
                simp only [List.length_cons] at hlen2 ⊢
                omega
              by_cases h4 : isTrail t
              · rw [sjisCore_pair .strict b t rest2 h1 h2 h3 h4] at hB
                cases hrest : sjisCore .strict rest2 with
                | error i => rw [hrest] at hB; simp [consDec] at hB
                | ok t2 =>
                  rw [hrest] at hB
                  simp only [consDec, Except.ok.injEq] at hB
                  rw [List.cons_append, List.cons_append,
                    sjisCore_pair .replace b t (rest2 ++ s) h1 h2 h3 h4,
                    ih rest2 t2 s r hlen3 hrest hs]
                  simp only [consDec, Except.ok.injEq]
                  rw [← hB]
                  simp
              · rw [sjisCore_badtrail_strict b t rest2 h1 h2 h3 h4] at hB
                simp at hB
          · rw [sjisCore_invalid_strict b rest h1 h2 h3] at hB
            simp at hB

/-- A strict-clean buffer decodes identically (in front of a suffix) under
the replace policy. -/
theorem sjisCore_strict_append (B txt s r : List Nat)
    (hB : sjisCore .strict B = .ok txt) (hs : sjisCore .replace s = .ok r) :
    sjisCore .replace (B ++ s) = .ok (txt ++ r) :=
  sjisCore_strict_append_aux B.length B txt s r le_rfl hB hs

/-- A strict-clean buffer decodes to the same text under the replace
policy. -/
theorem sjisCore_strict_replace (B txt : List Nat)
    (hB : sjisCore .strict B = .ok txt) : sjisCore .replace B = .ok txt := by
  have := sjisCore_strict_append B txt [] [] hB rfl
  simpa using this

/-- A lone lead byte decodes, under the replace policy, to the substitution
character. -/
theorem sjisCore_lead_single (l : Nat) (hl : isLead l = true) :
    sjisCore .replace [l] = .ok [0xFFFD] := by
  have hl' : (0x81 ≤ l ∧ l ≤ 0x9F) ∨ (0xE0 ≤ l ∧ l ≤ 0xFC) := by
    simp only [isLead, Bool.or_eq_true, Bool.and_eq_true, decide_eq_true_eq] at hl
    exact hl
  have h1 : ¬ l ≤ 0x7F := by omega
  have h2 : ¬ (0xA1 ≤ l ∧ l ≤ 0xDF) := by omega
  conv_lhs => rw [sjisCore.eq_def]
  simp only [if_neg h1, if_neg h2, if_pos hl]

/-- A lead byte followed by a trail byte decodes, under the replace policy,
to the combined character. -/
theorem sjisCore_lead_trail (l t : Nat) (hl : isLead l = true) (ht : isTrail t = true) :
    sjisCore .replace [l, t] = .ok [pairChar l t] := by
  have hl' : (0x81 ≤ l ∧ l ≤ 0x9F) ∨ (0xE0 ≤ l ∧ l ≤ 0xFC) := by
    simp only [isLead, Bool.or_eq_true, Bool.and_eq_true, decide_eq_true_eq] at hl
    exact hl
  have h1 : ¬ l ≤ 0x7F := by omega
  have h2 : ¬ (0xA1 ≤ l ∧ l ≤ 0xDF) := by omega
  rw [sjisCore_pair .replace l t [] h1 h2 hl ht]
  rfl

/-- Strict decoding never emits the substitution character `0xFFFD`. -/
theorem sjisCore_strict_no_fffd :
    ∀ n B txt, B.length ≤ n → sjisCore .strict B = .ok txt → (0xFFFD : Nat) ∉ txt := by
  intro n
  induction n with
  | zero =>
    intro B txt hlen hB
    have hBnil : B = [] := List.length_eq_zero.mp (Nat.le_zero.mp hlen)
    subst hBnil
    simp only [sjisCore, Except.ok.injEq] at hB
    subst hB
    simp
  | succ n ih =>
    intro B txt hlen hB
    cases B with
    | nil =>
      simp only [sjisCore, Except.ok.injEq] at hB
      subst hB
      simp
    | cons b rest =>
      have hlen2 : rest.length ≤ n := by
        simp only [List.length_cons] at hlen
        omega
      by_cases h1 : b ≤ 0x7F
      · rw [sjisCore_ascii .strict b rest h1] at hB
        cases hrest : sjisCore .strict rest with
        | error i => rw [hrest] at hB; simp [consDec] at hB
        | ok t2 =>
          rw [hrest] at hB
          simp only [consDec, Except.ok.injEq] at hB
          subst hB
          intro hmem
          rcases List.mem_cons.mp hmem with hb | hmem2
          · omega
          · exact ih rest t2 hlen2 hrest hmem2
      · by_cases h2 : 0xA1 ≤ b ∧ b ≤ 0xDF
        · rw [sjisCore_kana .strict b rest h1 h2] at hB
          cases hrest : sjisCore .strict rest with
          | error i => rw [hrest] at hB; simp [consDec] at hB
          | ok t2 =>
            rw [hrest] at hB
            simp only [consDec, Except.ok.injEq] at hB
            subst hB
            intro hmem
            rcases List.mem_cons.mp hmem with hb | hmem2
            · omega
            · exact ih rest t2 hlen2 hrest hmem2
        · by_cases h3 : isLead b
          · cases rest with
            | nil =>
              rw [sjisCore_lead_nil_strict b h1 h2 h3] at hB
              simp at hB
            | cons t rest2 =>
              have hlen3 : rest2.length ≤ n := by
                simp only [List.length_cons] at hlen2 ⊢
                omega
              by_cases h4 : isTrail t
              · rw [sjisCore_pair .strict b t rest2 h1 h2 h3 h4] at hB
                cases hrest : sjisCore .strict rest2 with
                | error i => rw [hrest] at hB; simp [consDec] at hB
                | ok t2 =>
                  rw [hrest] at hB
                  simp only [consDec, Except.ok.injEq] at hB
                  subst hB
                  intro hmem
                  rcases List.mem_cons.mp hmem with hb | hmem2
                  · simp only [pairChar] at hb
                    omega
                  · exact ih rest2 t2 hlen3 hrest hmem2
              · rw [sjisCore_badtrail_strict b t rest2 h1 h2 h3 h4] at hB
                simp at hB
          · rw [sjisCore_invalid_strict b rest h1 h2 h3] at hB
            simp at hB

/-- One loop iteration: the step raised an exception. -/
theorem driveLoop_exn {α : Type} (step : Nat → Except PyExn (List α × Nat))
    (offset fuel : Nat) (e : PyExn) (hs : step offset = .error e) :
    driveLoop step offset (fuel + 1) = .exn e := by
  simp only [driveLoop, hs]

/-- One loop iteration: the step consumed nothing, so the loop stops with
this chunk appended. -/
theorem driveLoop_stop {α : Type} (step : Nat → Except PyExn (List α × Nat))
    (offset fuel : Nat) (chunk : List α) (hs : step offset = .ok (chunk, 0)) :
    driveLoop step offset (fuel + 1) = .done [chunk] offset := by
  simp only [driveLoop, hs]
  rfl

/-- One loop iteration: the step consumed a positive count, so the loop
appends the chunk and continues at the advanced offset. -/
theorem driveLoop_go {α : Type} (step : Nat → Except PyExn (List α × Nat))
    (offset fuel : Nat) (chunk : List α) (consumed : Nat)
    (hs : step offset = .ok (chunk, consumed)) (hc : ¬ consumed = 0) :
    driveLoop step offset (fuel + 1) =
      match driveLoop step (offset + consumed) fuel with
      | .done chunks fin => .done (chunk :: chunks) fin
      | r => r := by
  simp only [driveLoop, hs, if_neg hc]

/-- The length of one xor block is the pattern length. -/
theorem xorSlice_length (p data : List Nat) (offset : Nat) :
    (xorSlice p data offset).length = p.length := by
  simp [xorSlice]

/-- Entry `j` of one xor block. -/
theorem xorSlice_getD (p data : List Nat) (offset j : Nat) (hj : j < p.length) :
    (xorSlice p data offset).getD j 0 = p.getD j 0 ^^^ data.getD (j + offset) 0 := by
  unfold xorSlice
  rw [List.getD_eq_getElem _ _ (by simp [hj])]
  simp

/-- Total length of a full xor pass of `k` blocks. -/
theorem xorChunks_flatten_length (p data : List Nat) :
    ∀ k offset, ((xorChunks p data k offset).flatten).length = k * p.length := by
  intro k
  induction k with
  | zero => intro o; simp [xorChunks]
  | succ k ih =>
    intro o
    simp only [xorChunks, List.flatten_cons, List.length_append, ih, xorSlice_length]
    ring

/-- Entry `j` of a full xor pass of `k` blocks starting at `offset`:
pattern byte `j mod n` xor-ed with data byte `offset + j`. -/
theorem xorChunks_flatten_getD (p data : List Nat) (_hp : 0 < p.length) :
    ∀ k offset j, j < k * p.length →
      ((xorChunks p data k offset).flatten).getD j 0 =
        p.getD (j % p.length) 0 ^^^ data.getD (offset + j) 0 := by
  intro k
  induction k with
  | zero =>
    intro o j hj
    simp at hj
  | succ k ih =>
    intro o j hj
    simp only [xorChunks, List.flatten_cons]
    by_cases hjn : j < p.length
    · rw [List.getD_append _ _ _ _ (by rw [xorSlice_length]; exact hjn)]
      rw [xorSlice_getD p data o j hjn]
      rw [Nat.mod_eq_of_lt hjn]
      rw [Nat.add_comm j o]
    · rw [List.getD_append_right _ _ _ _ (by rw [xorSlice_length]; omega)]
      rw [xorSlice_length]
      have hsm : (k + 1) * p.length = k * p.length + p.length := by ring
      have hlt : j - p.length < k * p.length := by omega
      rw [ih (o + p.length) (j - p.length) hlt]
      have hmod : (j - p.length) % p.length = j % p.length := by
        conv_rhs => rw [← Nat.sub_add_cancel (Nat.le_of_not_lt hjn)]
        rw [Nat.add_mod_right]
      rw [hmod]
      have harg : o + p.length + (j - p.length) = o + j := by omega
      rw [harg]

/-- The loop over the xor step: with `r < n` trailing bytes after `k` whole
blocks from `offset`, it performs `k` consuming calls and one final
zero-consumption call, stopping at `offset + k * n`. -/
theorem xor_driveLoop (p data : List Nat) (hp : 0 < p.length) :
    ∀ k fuel offset r, r < p.length → data.length = offset + k * p.length + r → k < fuel →
      driveLoop (xorStep p data) offset fuel =
        .done (xorChunks p data k offset ++ [[]]) (offset + k * p.length) := by
  intro k
  induction k with
  | zero =>
    intro fuel offset r hr hlen hf
    obtain ⟨f, rfl⟩ : ∃ f, fuel = f + 1 := ⟨fuel - 1, by omega⟩
    have hstep : xorStep p data offset = .ok ([], 0) := by
      unfold xorStep
      rw [if_pos (by omega)]
    rw [driveLoop_stop _ _ _ _ hstep]
    simp [xorChunks]
  | succ k ih =>
    intro fuel offset r hr hlen hf
    obtain ⟨f, rfl⟩ : ∃ f, fuel = f + 1 := ⟨fuel - 1, by omega⟩
    have hsm : (k + 1) * p.length = k * p.length + p.length := by ring
    have hstep : xorStep p data offset = .ok (xorSlice p data offset, p.length) := by
      unfold xorStep
      rw [if_neg (by omega)]
    rw [driveLoop_go _ _ _ _ _ hstep (by omega)]
    have harith : offset + (k + 1) * p.length = offset + p.length + k * p.length := by ring
    rw [harith]
    have hrec := ih f (offset + p.length) r hr (by rw [hlen]; ring) (by omega)
    rw [hrec]
    simp [xorChunks]

/-- The driver, when its loop exits normally. -/
theorem transform_done {α : Type} (data : List Nat)
    (provider : (List Nat → Nat → Except PyExn (List α × Nat)) × List α)
    (full : Bool) (chunks : List (List α)) (offset : Nat)
    (h : driveLoop (provider.1 data) 0 (data.length + 1) = .done chunks offset) :
    transform data provider full =
      (if full && (offset != data.length) then
        .incomplete (pyJoin provider.2 chunks) ((data.length : Int) - (offset : Int))
      else .ok (pyJoin provider.2 chunks)) := by
  unfold transform
  simp only [h]

/-- The driver, when an exception escapes the step. -/
theorem transform_exn {α : Type} (data : List Nat)
    (provider : (List Nat → Nat → Except PyExn (List α × Nat)) × List α)
    (full : Bool) (e : PyExn)
    (h : driveLoop (provider.1 data) 0 (data.length + 1) = .exn e) :
    transform data provider full = .exn e := by
  unfold transform
  simp only [h]

/-- The driver, when the fuel of the embedding runs out. -/
theorem transform_fuelOut {α : Type} (data : List Nat)
    (provider : (List Nat → Nat → Except PyExn (List α × Nat)) × List α)
    (full : Bool)
    (h : driveLoop (provider.1 data) 0 (data.length + 1) = .fuelOut) :
    transform data provider full = .fuelOut := by
  unfold transform
  simp only [h]

/-- The driver over the xor transform, characterised by `len mod n`:
success with the joined blocks when the buffer is aligned, otherwise the
incompleteness error carrying the joined blocks and the remainder. -/
theorem xor_transform_eq (p data : List Nat) (hp : 0 < p.length) :
    transform data (xor p) true =
      (if data.length % p.length = 0 then
        .ok ((xorChunks p data (data.length / p.length) 0).flatten)
      else
        .incomplete ((xorChunks p data (data.length / p.length) 0).flatten)
          ((data.length % p.length : Nat) : Int)) := by
  have hdm := Nat.div_add_mod data.length p.length
  have hdm2 : data.length / p.length * p.length + data.length % p.length = data.length := by
    rw [Nat.mul_comm]
    omega
  have hloop := xor_driveLoop p data hp (data.length / p.length) (data.length + 1) 0
    (data.length % p.length) (Nat.mod_lt _ hp)
    (by rw [Nat.zero_add]; omega)
    (by have := Nat.div_le_self data.length p.length; omega)
  rw [Nat.zero_add] at hloop
  rw [transform_done data (xor p) true _ _ hloop]
  rw [show (xor p).2 = ([] : List Nat) from rfl, pyJoin_nil]
  have hflat : (xorChunks p data (data.length / p.length) 0 ++ [[]]).flatten =
      (xorChunks p data (data.length / p.length) 0).flatten := by
    simp
  rw [hflat]
  by_cases hz : data.length % p.length = 0
  · rw [if_pos hz]
    have hoff : data.length / p.length * p.length = data.length := by omega
    rw [hoff]
    simp
  · rw [if_neg hz]
    have hne : (data.length / p.length * p.length != data.length) = true := by
      rw [bne_iff_ne]
      intro hcontra
      omega
    rw [Bool.true_and, hne, if_pos rfl]
    have htr : (data.length : Int) - ((data.length / p.length * p.length : Nat) : Int) =
        ((data.length % p.length : Nat) : Int) := by
      omega
    rw [htr]

/-- Applying the xor pass twice over an aligned buffer recovers it. -/
theorem xor_invol (p data : List Nat) (hp : 0 < p.length) (k : Nat)
    (hlen : data.length = k * p.length) :
    (xorChunks p ((xorChunks p data k 0).flatten) k 0).flatten = data := by
  have hl2 : ((xorChunks p ((xorChunks p data k 0).flatten) k 0).flatten).length =
      k * p.length := xorChunks_flatten_length p _ k 0
  apply List.ext_getElem (by rw [hl2, hlen])
  intro i h1 h2
  have hik : i < k * p.length := by rw [hl2] at h1; exact h1
  have e1 := xorChunks_flatten_getD p ((xorChunks p data k 0).flatten) hp k 0 i hik
  have e2 := xorChunks_flatten_getD p data hp k 0 i hik
  rw [Nat.zero_add] at e1 e2
  rw [← List.getD_eq_getElem _ 0 h1, ← List.getD_eq_getElem _ 0 h2]
  rw [e1, e2]
  rw [← Nat.xor_assoc, Nat.xor_self, Nat.zero_xor]

/-- A step over a buffer that is a strict-clean prefix followed by a lone
lead byte: the lenient policy backs off, returning only the prefix text and
leaving the lead byte unconsumed. -/
theorem sjisStep_boundary (B txt : List Nat) (l : Nat)
    (hB : sjisCore .strict B = .ok txt) (hl : isLead l = true) :
    sjisStep .replace (B ++ [l]) 0 = .ok (txt, B.length) := by
  have hl' : (0x81 ≤ l ∧ l ≤ 0x9F) ∨ (0xE0 ≤ l ∧ l ≤ 0xFC) := by
    simp only [isLead, Bool.or_eq_true, Bool.and_eq_true, decide_eq_true_eq] at hl
    exact hl
  have hrepB : sjisCore .replace B = .ok txt := sjisCore_strict_replace B txt hB
  have hBl : sjisCore .replace (B ++ [l]) = .ok (txt ++ [0xFFFD]) :=
    sjisCore_strict_append B txt [l] [0xFFFD] hB (sjisCore_lead_single l hl)
  have hne : (B ++ [l]) ≠ [] := by simp
  unfold sjisStep
  rw [if_neg hne, List.drop_zero]
  have hdec : sjisDecode .replace (B ++ [l]) = .ok (txt ++ [0xFFFD], (B ++ [l]).length) := by
    unfold sjisDecode
    rw [hBl]
  simp only [hdec]
  rw [if_neg (by simp : ¬ (Policy.replace = Policy.strict))]
  have hlast : ((B ++ [l]).getLast?).getD 0 = l := by
    rw [List.getLast?_concat]
    rfl
  rw [hlast]
  rw [if_neg (by omega)]
  rw [List.dropLast_concat]
  have hdecB : sjisDecode .replace B = .ok (txt, B.length) := by
    unfold sjisDecode
    rw [hrepB]
  simp only [hdecB]
  have hpref : txt.isPrefixOf (txt ++ [0xFFFD]) = true := by
    rw [List.isPrefixOf_iff_prefix]
    exact List.prefix_append txt [0xFFFD]
  rw [hpref, if_pos rfl]

/-- A step over a strict-clean prefix followed by a complete two-byte
sequence: the lenient policy keeps the full decode, consuming everything. -/
theorem sjisStep_complete (B txt : List Nat) (l t : Nat)
    (hB : sjisCore .strict B = .ok txt) (hl : isLead l = true) (ht : isTrail t = true) :
    sjisStep .replace (B ++ [l, t]) 0 = .ok (txt ++ [pairChar l t], (B ++ [l, t]).length) := by
  have hBlt : sjisCore .replace (B ++ [l, t]) = .ok (txt ++ [pairChar l t]) :=
    sjisCore_strict_append B txt [l, t] [pairChar l t] hB (sjisCore_lead_trail l t hl ht)
  have hBl : sjisCore .replace (B ++ [l]) = .ok (txt ++ [0xFFFD]) :=
    sjisCore_strict_append B txt [l] [0xFFFD] hB (sjisCore_lead_single l hl)
  have hne : (B ++ [l, t]) ≠ [] := by simp
  have hsplit : B ++ [l, t] = (B ++ [l]) ++ [t] := by simp
  unfold sjisStep
  rw [if_neg hne, List.drop_zero]
  have hdec : sjisDecode .replace (B ++ [l, t]) = .ok (txt ++ [pairChar l t], (B ++ [l, t]).length) := by
    unfold sjisDecode
    rw [hBlt]
  simp only [hdec]
  rw [if_neg (by simp : ¬ (Policy.replace = Policy.strict))]
  have hlast : ((B ++ [l, t]).getLast?).getD 0 = t := by
    rw [hsplit, List.getLast?_concat]
    rfl
  rw [hlast]
  by_cases hcond : t < 0x81 ∨ (0xA0 ≤ t ∧ t ≤ 0xDF) ∨ 0xFD ≤ t
  · rw [if_pos hcond]
  · rw [if_neg hcond]
    have hdl : (B ++ [l, t]).dropLast = B ++ [l] := by
      rw [hsplit, List.dropLast_concat]
    rw [hdl]
    have hdecBl : sjisDecode .replace (B ++ [l]) = .ok (txt ++ [0xFFFD], (B ++ [l]).length) := by
      unfold sjisDecode
      rw [hBl]
    simp only [hdecBl]
    have hpref : (txt ++ [0xFFFD]).isPrefixOf (txt ++ [pairChar l t]) = false := by
      rw [← Bool.not_eq_true, List.isPrefixOf_iff_prefix]
      intro hpre
      rw [List.prefix_append_right_inj] at hpre
      rw [List.cons_prefix_cons] at hpre
      have hcontra : (0xFFFD : Nat) = pairChar l t := hpre.1
      simp only [pairChar] at hcontra
      omega
    rw [hpref]
    rw [if_neg (by simp)]

/-- Driving a strict-clean prefix followed by a complete two-byte sequence
under the lenient policy: the whole buffer is consumed in one step and the
result ends with the combined character. -/
theorem sjis_drive_complete (B txt : List Nat) (l t : Nat)
    (hB : sjisCore .strict B = .ok txt) (hl : isLead l = true) (ht : isTrail t = true) :
    transform (B ++ [l, t]) (sjis .replace) true = .ok (txt ++ [pairChar l t]) := by
  have hlen : (B ++ [l, t]).length = B.length + 2 := by simp
  have hstep0 := sjisStep_complete B txt l t hB hl ht
  rw [hlen] at hstep0
  have hstepEnd : sjisStep .replace (B ++ [l, t]) (B.length + 2) = .ok ([], 0) :=
    sjisStep_end _ _ _ (le_of_eq hlen)
  have hloop : driveLoop (sjisStep .replace (B ++ [l, t])) 0 ((B ++ [l, t]).length + 1) =
      .done [txt ++ [pairChar l t], []] (B.length + 2) := by
    rw [driveLoop_go _ _ _ _ _ hstep0 (by omega)]
    rw [Nat.zero_add, hlen]
    have h2 : driveLoop (sjisStep .replace (B ++ [l, t])) (B.length + 2) (B.length + 2) =
        .done [[]] (B.length + 2) :=
      driveLoop_stop _ _ (B.length + 1) _ hstepEnd
    simp only [h2]
  rw [transform_done _ _ _ _ _ hloop]
  rw [hlen]
  rw [show (sjis Policy.replace).2 = ([] : List Nat) from rfl, pyJoin_nil]
  simp

/-- Claim C1: the spec says the strict-policy text-decode step never lets
any exception escape.  The code violates this: for a decode error hit at a
positive offset, the source's own `assert d == data` (line 44) compares the
exception's object — the slice `data[offset:]` — against the whole buffer
and fails, so an AssertionError escapes the step and the driver.  Driving
`[0x41, 0x80]` reaches exactly this state at offset 1. -/
theorem c1_strict_assert_escapes :
    sjisStep .strict [0x41, 0x80] 1 = .error .assertionError ∧
    transform [0x41, 0x80] (sjis .strict) true = .exn .assertionError := by
  decide

/-- Claim C8: for every buffer and both policies, when no data remains from
the offset the sjis step returns the empty chunk with zero consumed. -/
theorem c8_no_data_left (pol : Policy) (data : List Nat) (offset : Nat)
    (h : data.length ≤ offset) : sjisStep pol data offset = .ok ([], 0) :=
  sjisStep_end pol data offset h

/-- Witness for claim C8 at concrete inputs, both policies. -/
theorem c8_witness :
    sjisStep Policy.strict [0x41] 1 = .ok ([], 0) ∧
    sjisStep Policy.replace [] 0 = .ok ([], 0) :=
  ⟨c8_no_data_left .strict [0x41] 1 (by decide),
   c8_no_data_left .replace [] 0 (by decide)⟩

/-- Claim C9: for every buffer driven with either provided transform, the
driver's offset stays within `[0, len]`, never decreases, and strictly
increases at every iteration except possibly the last. -/
theorem c9_offset_invariant (data p : List Nat) (pol : Policy) :
    offsetInv (xorStep p data) data.length ∧ offsetInv (sjisStep pol data) data.length := by
  constructor
  · obtain ⟨h1, h2, h3⟩ := offsetTrace_inv (xorStep p data) data.length
      (xorStep_progress p data) (data.length + 1) 0 (Nat.zero_le _)
    exact ⟨offsetTrace_head _ _ _, h1, h2, h3⟩
  · obtain ⟨h1, h2, h3⟩ := offsetTrace_inv (sjisStep pol data) data.length
      (sjisStep_progress pol data) (data.length + 1) 0 (Nat.zero_le _)
    exact ⟨offsetTrace_head _ _ _, h1, h2, h3⟩

/-- Claim C10 (amended): driving either provided transform always
terminates — the fuel of the embedding is never exhausted, so the driver
returns a result, raises the incompleteness error, or propagates a step
exception; it never loops forever. -/
theorem c10_driver_terminates (data p : List Nat) (pol : Policy) (full : Bool) :
    transform data (xor p) full ≠ .fuelOut ∧ transform data (sjis pol) full ≠ .fuelOut := by
  constructor
  · cases hl : driveLoop ((xor p).1 data) 0 (data.length + 1) with
    | done chunks offset =>
      rw [transform_done _ _ _ _ _ hl]
      split <;> simp
    | exn e =>
      rw [transform_exn _ _ _ _ hl]
      simp
    | fuelOut =>
      exact absurd hl (driveLoop_no_fuelOut ((xor p).1 data) data.length
        (xorStep_progress p data) (data.length + 1) 0 (Nat.zero_le _) (by omega))
  · cases hl : driveLoop ((sjis pol).1 data) 0 (data.length + 1) with
    | done chunks offset =>
      rw [transform_done _ _ _ _ _ hl]
      split <;> simp
    | exn e =>
      rw [transform_exn _ _ _ _ hl]
      simp
    | fuelOut =>
      exact absurd hl (driveLoop_no_fuelOut ((sjis pol).1 data) data.length
        (sjisStep_progress pol data) (data.length + 1) 0 (Nat.zero_le _) (by omega))

/-- Counterexample to claim C10 as stated: driving `[0x42, 0xA0]` with the
strict sjis transform neither returns a result nor raises the
incompleteness error — the failing `assert` of line 44 escapes instead. -/
theorem c10_counterexample :
    transform [0x42, 0xA0] (sjis .strict) true = .exn .assertionError ∧
    outputOf (transform [0x42, 0xA0] (sjis .strict) true) = none := by
  decide

/-- Claim C4: the driver raises the incompleteness error exactly when
`full` is set and the loop stopped short of the end; the error carries the
joined partial result and `len - offset`; without `full` the same joined
result is returned successfully. -/
theorem c4_driver_incompleteness_iff (data : List Nat)
    (step : List Nat → Nat → Except PyExn (List Nat × Nat)) (joiner : List Nat)
    (full : Bool) (chunks : List (List Nat)) (offset : Nat)
    (h : driveLoop (step data) 0 (data.length + 1) = .done chunks offset) :
    (transform data (step, joiner) full =
        .incomplete (pyJoin joiner chunks) ((data.length : Int) - (offset : Int)) ↔
      full = true ∧ offset ≠ data.length) ∧
    (full = false ∨ offset = data.length →
      transform data (step, joiner) full = .ok (pyJoin joiner chunks)) ∧
    (∀ q tr, transform data (step, joiner) full = .incomplete q tr →
      q = pyJoin joiner chunks ∧ tr = (data.length : Int) - (offset : Int)) := by
  have ht := transform_done data (step, joiner) full chunks offset h
  by_cases hc : full = true ∧ offset ≠ data.length
  · have hcond : (full && (offset != data.length)) = true := by
      rw [hc.1, Bool.true_and, bne_iff_ne]
      exact hc.2
    rw [hcond, if_pos rfl] at ht
    refine ⟨⟨fun _ => hc, fun _ => ht⟩, ?_, ?_⟩
    · intro hcase
      rcases hcase with hf | ho
      · rw [hf] at hc
        exact absurd hc.1 (by simp)
      · exact absurd ho hc.2
    · intro q tr hq
      rw [ht] at hq
      injection hq with e1 e2
      exact ⟨e1.symm, e2.symm⟩
  · have hcond : (full && (offset != data.length)) = false := by
      cases full with
      | false => rw [Bool.false_and]
      | true =>
        have ho : offset = data.length := by
          by_contra hno
          exact hc ⟨rfl, hno⟩
        rw [ho, Bool.true_and, bne_self_eq_false]
    rw [hcond, if_neg (by simp)] at ht
    refine ⟨⟨fun hq => ?_, fun hq => absurd hq hc⟩, fun _ => ht, ?_⟩
    · rw [ht] at hq
      exact absurd hq (by simp)
    · intro q tr hq
      rw [ht] at hq
      exact absurd hq (by simp)

/-- Witness for claim C4: a fully consumed aligned buffer is returned
successfully as the join of the collected chunks. -/
theorem c4_witness : transform [1, 2] (xorStep [5], ([] : List Nat)) true = .ok [4, 7] := by
  have h := c4_driver_incompleteness_iff [1, 2] (xorStep [5]) [] true [[4], [7], []] 2 (by decide)
  exact (h.2.1 (Or.inr rfl)).trans (by decide)

/-- Claim C6: the driver's output — returned successfully or attached to
the incompleteness error — is the in-order join, with the supplied joiner,
of every chunk returned across its step calls, including the chunk of the
final zero-consumption call. -/
theorem c6_join_ordering (data : List Nat)
    (step : List Nat → Nat → Except PyExn (List Nat × Nat)) (joiner : List Nat)
    (full : Bool) (chunks : List (List Nat)) (offset : Nat)
    (h : driveLoop (step data) 0 (data.length + 1) = .done chunks offset) :
    outputOf (transform data (step, joiner) full) =
      some (pyJoin joiner (chunkTrace (step data) 0 (data.length + 1))) := by
  rw [chunkTrace_eq_of_done (step data) (data.length + 1) 0 chunks offset h]
  rw [transform_done data (step, joiner) full chunks offset h]
  split
  · rfl
  · rfl

/-- Witness for claim C6: a step whose very first call returns a non-empty
chunk with zero consumption, over the empty buffer — the chunk still
appears in the output. -/
theorem c6_witness :
    outputOf (transform ([] : List Nat)
      ((fun _ _ => Except.ok ([42], 0) : List Nat → Nat → Except PyExn (List Nat × Nat)),
        ([] : List Nat)) true) = some [42] := by
  have h := c6_join_ordering [] (fun _ _ => Except.ok ([42], 0)) [] true [[42]] 0 (by decide)
  exact h.trans (by decide)

/-- Claim C5: driving the xor transform over a buffer whose length is not a
multiple of the (non-empty) pattern length, requiring full consumption,
fails with the incompleteness error reporting exactly `len mod n` trailing
bytes and the joined blocks as partial output. -/
theorem c5_xor_truncation (p data : List Nat) (hp : 0 < p.length)
    (hnd : ¬ p.length ∣ data.length) :
    transform data (xor p) true =
      .incomplete ((xorChunks p data (data.length / p.length) 0).flatten)
        ((data.length % p.length : Nat) : Int) := by
  have hz : ¬ data.length % p.length = 0 := fun hcontra =>
    hnd (Nat.dvd_iff_mod_eq_zero.mpr hcontra)
  rw [xor_transform_eq p data hp, if_neg hz]

/-- Witness for claim C5: the spec's example — pattern `[0x05, 0x06]` over
buffer `[0x01, 0x02, 0x03]` fails with partial result `[0x04, 0x04]` and
trailing count 1. -/
theorem c5_witness : transform [1, 2, 3] (xor [5, 6]) true = .incomplete [4, 4] 1 := by
  have h := c5_xor_truncation [5, 6] [1, 2, 3] (by decide) (by decide)
  exact h.trans (by decide)

/-- Claim C3: over a buffer whose length is a multiple of the pattern
length, driving the xor transform twice with the same pattern returns the
original buffer. -/
theorem c3_xor_self_inverse (data p : List Nat) (h : p.length ∣ data.length) :
    ∃ out, transform data (xor p) true = .ok out ∧ transform out (xor p) true = .ok data := by
  by_cases hp : p.length = 0
  · have hd : data.length = 0 := by
      rw [hp] at h
      exact Nat.eq_zero_of_zero_dvd h
    have hdata : data = [] := List.length_eq_zero.mp hd
    have hpat : p = [] := List.length_eq_zero.mp hp
    subst hdata
    subst hpat
    exact ⟨[], by decide, by decide⟩
  · have hp' : 0 < p.length := Nat.pos_of_ne_zero hp
    have hmod : data.length % p.length = 0 := Nat.dvd_iff_mod_eq_zero.mp h
    have hlen : data.length = data.length / p.length * p.length := by
      have hdm := Nat.div_add_mod data.length p.length
      rw [Nat.mul_comm] at hdm
      omega
    have houtlen := xorChunks_flatten_length p data (data.length / p.length) 0
    have t1 := xor_transform_eq p data hp'
    rw [if_pos hmod] at t1
    have hmod2 : ((xorChunks p data (data.length / p.length) 0).flatten).length % p.length = 0 := by
      rw [houtlen]
      exact Nat.mul_mod_left _ _
    have hdiv2 : ((xorChunks p data (data.length / p.length) 0).flatten).length / p.length
        = data.length / p.length := by
      rw [houtlen]
      exact Nat.mul_div_cancel _ hp'
    have t2 := xor_transform_eq p ((xorChunks p data (data.length / p.length) 0).flatten) hp'
    rw [if_pos hmod2, hdiv2] at t2
    refine ⟨(xorChunks p data (data.length / p.length) 0).flatten, t1, ?_⟩
    rw [t2, xor_invol p data hp' (data.length / p.length) hlen]

/-- Witness for claim C3: the spec's example pattern `[0x05]` over
`[0x01, 0x02]`, driven twice. -/
theorem c3_witness :
    ∃ out, transform [1, 2] (xor [5]) true = .ok out ∧
      transform out (xor [5]) true = .ok [1, 2] :=
  c3_xor_self_inverse [1, 2] [5] (by decide)

/-- Claim C7: driving the xor transform with an empty pattern consumes
nothing (the loop stops on its first call, the trace is `[0, 0]`); with
`require_full` set this is the incompleteness error with empty partial
output and the whole length as trailing count on a non-empty buffer, and a
success with empty output on the empty buffer. -/
theorem c7_zero_pattern (data : List Nat) :
    transform data (xor []) true =
      (if data = [] then DriveResult.ok ([] : List Nat)
        else DriveResult.incomplete [] (data.length : Int)) ∧
    offsetTrace (xorStep [] data) 0 (data.length + 1) = [0, 0] := by
  have hstep : xorStep [] data 0 = .ok ([], 0) := by
    unfold xorStep
    rw [if_neg (by simp)]
    rfl
  have hloop : driveLoop (xorStep [] data) 0 (data.length + 1) = .done [[]] 0 :=
    driveLoop_stop _ _ data.length _ hstep
  constructor
  · rw [transform_done data (xor []) true [[]] 0 hloop]
    cases data with
    | nil => simp [pyJoin]
    | cons d ds =>
      rw [if_pos (by simp), if_neg (by simp)]
      rw [show (xor ([] : List Nat)).2 = ([] : List Nat) from rfl, pyJoin_nil]
      simp
  · simp only [offsetTrace, hstep]
    rfl

/-- Claim C2: under the lenient policy, a buffer that is a strict-clean
prefix followed by exactly the first byte of a two-byte sequence yields the
prefix text only — no substitution character — with the lead byte left
unconsumed; driving the buffer extended with the completing trail byte
yields the correctly combined character in the output. -/
theorem c2_lenient_boundary_safety (B txt : List Nat) (l t : Nat)
    (hB : sjisCore .strict B = .ok txt) (hl : isLead l = true) (ht : isTrail t = true) :
    sjisStep .replace (B ++ [l]) 0 = .ok (txt, B.length) ∧
    (0xFFFD : Nat) ∉ txt ∧
    transform (B ++ [l, t]) (sjis .replace) true = .ok (txt ++ [pairChar l t]) :=
  ⟨sjisStep_boundary B txt l hB hl,
   sjisCore_strict_no_fffd B.length B txt le_rfl hB,
   sjis_drive_complete B txt l t hB hl ht⟩

/-- Witness for claim C2: buffer `'A'` plus lead byte `0x81`; appending the
trail byte `0x40` completes the two-byte character. -/
theorem c2_witness :
    sjisStep .replace [0x41, 0x81] 0 = .ok ([0x41], 1) ∧
    (0xFFFD : Nat) ∉ [0x41] ∧
    transform [0x41, 0x81, 0x40] (sjis .replace) true = .ok [0x41, pairChar 0x81 0x40] := by
  have h := c2_lenient_boundary_safety [0x41] [0x41] 0x81 0x40 (by decide) (by decide) (by decide)
  exact ⟨h.1, h.2.1, h.2.2⟩

end Codecs2
